import Mathlib

/-!
Verification development for the spelling-report pipeline in
`PDF_to_txt.py`: tokenizer, candidate filter, word counter, spelling
analyzer, CSV report rows and the paginated PDF rendering.

Modelling conventions:
* Python strings are modelled as `List Char`.
* Python's Unicode character predicates (`str.isalpha`, `str.isupper`,
  `str.islower`, `str.lower`) are modelled exactly on the Basic Latin
  (ASCII) block and on the Latin-1 letter range U+00C0..U+00FF;
  characters outside those ranges are conservatively treated as
  uncased non-letters.  The pipeline only ever applies the candidate
  filter to normalized tokens, which consist of ASCII letters only,
  so this restriction is invisible to the pipeline itself.
* The dictionary oracle (the external `spellchecker` library) is a
  parameter: a `known` membership predicate and a `correction`
  suggestion function, with the batch `unknown` query returning the
  unknown subset of the queried words, as the external-interface
  contract states.
* Python `dict` is modelled as an insertion-ordered association list
  whose insert updates an existing key in place (keeping its
  position) and appends a fresh key at the end.
-/

namespace Spelling

/-- Character class `[A-Za-z]` used by the source's regular expressions
(`re.sub(r"[^A-Za-z]", "", t)` and `re.findall(r"[A-Za-z]+", text)`). -/
def isAsciiLetter (c : Char) : Bool :=
  decide (65 ≤ c.toNat ∧ c.toNat ≤ 90) || decide (97 ≤ c.toNat ∧ c.toNat ≤ 122)

/-- Python `str.isalpha` on one character, restricted to the modelled
blocks: ASCII letters plus the Latin-1 letters U+00C0..U+00FF
(excluding `×` U+00D7 and `÷` U+00F7). -/
def pyCharIsAlpha (c : Char) : Bool :=
  isAsciiLetter c ||
    decide (192 ≤ c.toNat ∧ c.toNat ≤ 255 ∧ c.toNat ≠ 215 ∧ c.toNat ≠ 247)

/-- Uppercase letters of the modelled blocks: `A`-`Z` plus
U+00C0..U+00DE except `×`. -/
def pyCharIsUpperChar (c : Char) : Bool :=
  decide (65 ≤ c.toNat ∧ c.toNat ≤ 90) ||
    decide (192 ≤ c.toNat ∧ c.toNat ≤ 222 ∧ c.toNat ≠ 215)

/-- Lowercase letters of the modelled blocks: `a`-`z` plus
U+00DF..U+00FF except `÷`. -/
def pyCharIsLowerChar (c : Char) : Bool :=
  decide (97 ≤ c.toNat ∧ c.toNat ≤ 122) ||
    decide (223 ≤ c.toNat ∧ c.toNat ≤ 255 ∧ c.toNat ≠ 247)

/-- Cased characters of the modelled blocks. -/
def pyCharIsCased (c : Char) : Bool :=
  pyCharIsUpperChar c || pyCharIsLowerChar c

/-- Python `str.lower` on one character of the modelled blocks. -/
def pyCharLower (c : Char) : Char :=
  if 65 ≤ c.toNat ∧ c.toNat ≤ 90 then Char.ofNat (c.toNat + 32)
  else if 192 ≤ c.toNat ∧ c.toNat ≤ 222 ∧ c.toNat ≠ 215 then Char.ofNat (c.toNat + 32)
  else c

/-- Python `str.isspace` / `str.split` whitespace class
(the whitespace code points of the Basic Multilingual Plane). -/
def pyIsSpace (c : Char) : Bool :=
  decide (9 ≤ c.toNat ∧ c.toNat ≤ 13) || decide (c.toNat = 32) ||
    decide (28 ≤ c.toNat ∧ c.toNat ≤ 31) || decide (c.toNat = 133) ||
    decide (c.toNat = 160) || decide (c.toNat = 5760) ||
    decide (8192 ≤ c.toNat ∧ c.toNat ≤ 8202) || decide (c.toNat = 8232) ||
    decide (c.toNat = 8233) || decide (c.toNat = 8239) ||
    decide (c.toNat = 8287) || decide (c.toNat = 12288)

/-- Python `str.isalpha`: non-empty and every character alphabetic. -/
def pyIsAlpha (s : List Char) : Bool :=
  !s.isEmpty && s.all pyCharIsAlpha

/-- Python `str.isupper`: at least one cased character and every cased
character uppercase. -/
def pyIsUpper (s : List Char) : Bool :=
  s.any pyCharIsCased && s.all fun c => !pyCharIsCased c || pyCharIsUpperChar c

/-- Python `str.lower` on a string. -/
def pyLower (s : List Char) : List Char :=
  s.map pyCharLower

/-- Worker for Python `str.split()` with no separator argument:
chunks delimited by runs of whitespace.  `acc` holds the characters of
the current chunk in reverse. -/
def splitWsAux : List Char → List Char → List (List Char)
  | [], acc => [acc.reverse]
  | c :: rest, acc =>
    if pyIsSpace c then acc.reverse :: splitWsAux rest []
    else splitWsAux rest (c :: acc)

/-- Python `text.split()`: whitespace-delimited chunks, empties dropped. -/
def pySplit (text : List Char) : List (List Char) :=
  (splitWsAux text []).filter fun t => !t.isEmpty

/-- Source `tokenize_text` (lines 23-31): split on whitespace, strip
every non-ASCII-letter from each raw token, and keep the pair
`(surface, clean)` whenever the cleaned form is non-empty. -/
def tokenize_text (text : List Char) : List (List Char × List Char) :=
  (pySplit text).filterMap fun t =>
    let clean := t.filter isAsciiLetter
    if clean.isEmpty then none else some (t, clean)

/-- Source `is_candidate_word` (lines 36-37):
`tok.isalpha() and len(tok) > 2 and not tok.isupper()`. -/
def is_candidate_word (tok : List Char) : Bool :=
  pyIsAlpha tok && decide (2 < tok.length) && !pyIsUpper tok

/-- Run counter behind `re.findall(r"[A-Za-z]+", text)`: counts the
maximal runs of ASCII letters; `inRun` records whether the previously
scanned character was an ASCII letter. -/
def countRuns : List Char → Bool → Nat
  | [], _ => 0
  | c :: rest, inRun =>
    if isAsciiLetter c then (if inRun then 0 else 1) + countRuns rest true
    else countRuns rest false

/-- Source `count_real_words` (lines 42-43):
`len(re.findall(r"[A-Za-z]+", text))`. -/
def count_real_words (text : List Char) : Nat :=
  countRuns text false

/-- The dictionary oracle (the external `spellchecker` library), per the
spec's external-interface contract: a known-word membership capability
and a best-suggestion capability that may return nothing. -/
structure SpellChecker where
  known : List Char → Bool
  correction : List Char → Option (List Char)

/-- Batch unknown query of the oracle: the subset of the queried words
that the dictionary does not know. -/
def SpellChecker.unknown (sc : SpellChecker) (words : List (List Char)) : List (List Char) :=
  words.filter fun w => !sc.known w

/-- Python `x or surface` for the optional suggestion `x`: falls back to
`surface` when the suggestion is absent (or the empty string, which is
falsy in Python). -/
def pyOr (o : Option (List Char)) (d : List Char) : List Char :=
  match o with
  | none => d
  | some s => if s.isEmpty then d else s

/-- Python `dict` assignment `m[k] = v`: update an existing key in
place (keeping its position), append a fresh key at the end. -/
def dictInsert (m : List (List Char × List Char)) (k v : List Char) :
    List (List Char × List Char) :=
  if m.any fun p => p.1 == k then
    m.map fun p => if p.1 == k then (k, v) else p
  else m ++ [(k, v)]

/-- Loop body of `analyze_spelling` (lines 53-58). -/
def analyzeStep (sc : SpellChecker) (st : List (List Char × List Char) × Nat)
    (tok : List Char × List Char) : List (List Char × List Char) × Nat :=
  if is_candidate_word tok.2 then
    let lw := pyLower tok.2
    if (sc.unknown [lw]).contains lw then
      (dictInsert st.1 tok.1 (pyOr (sc.correction lw) tok.1), st.2 + 1)
    else st
  else st

/-- Source `analyze_spelling` (lines 48-60): returns the ordered
corrections mapping and the running error count. -/
def analyze_spelling (text : List Char) (sc : SpellChecker) :
    List (List Char × List Char) × Nat :=
  (tokenize_text text).foldl (analyzeStep sc) ([], 0)

/-- Reference Spelling Analyzer following the spec's words (§4.4):
collect all candidate tokens first, make a single batch unknown-query
over their lower-cased normalized forms, then record a correction and
count an error for every candidate whose lower-cased form is in the
returned unknown subset.  `analyze_spelling` itself queries the oracle
with a singleton batch per token; this definition is the comparison
point for the refinement claim. -/
def analyze_spelling_batch (text : List Char) (sc : SpellChecker) :
    List (List Char × List Char) × Nat :=
  let cands := (tokenize_text text).filter fun tc => is_candidate_word tc.2
  let unknowns := sc.unknown (cands.map fun tc => pyLower tc.2)
  cands.foldl
    (fun st tc =>
      if unknowns.contains (pyLower tc.2) then
        (dictInsert st.1 tc.1 (pyOr (sc.correction (pyLower tc.2)) tc.1), st.2 + 1)
      else st)
    ([], 0)

/-- Concrete oracle for the scenario test: `teh` and `qick` are unknown
(with suggestions `the` and `quick`), every other word is known. -/
def oracleC1 : SpellChecker where
  known w := !(w == "teh".data || w == "qick".data)
  correction w :=
    if w == "teh".data then some "the".data
    else if w == "qick".data then some "quick".data
    else none

/-- Concrete oracle that knows only `the`-like words, flags `teh`, and
never offers a suggestion. -/
def oracleNoSuggest : SpellChecker where
  known w := !(w == "teh".data)
  correction _ := none

/-- CSV rows written by the report loop (lines 176-183), in write
order: header row, one row per corrections entry (accumulated by the
loop over `corrections.items()`), a blank separator row, the
total-word-count row and the error-count row. -/
def csv_rows (corrections : List (List Char × List Char)) (total_words error_count : Nat) :
    List (List String) :=
  let rows := [["잘못된 단어", "수정 제안"]]
  let rows := corrections.foldl (fun rs p => rs ++ [[p.1.asString, p.2.asString]]) rows
  let rows := rows ++ [[]]
  let rows := rows ++ [["총 단어 수", toString total_words]]
  rows ++ [["오류 단어 수", toString error_count]]

/-- Canvas operations of the PDF generator, in emission order. -/
inductive PdfOp where
  | setFont : String → Nat → PdfOp
  | drawString : ℚ → ℚ → List Char → PdfOp
  | setStrokeColor : ℚ → ℚ → ℚ → PdfOp
  | line : ℚ → ℚ → ℚ → ℚ → PdfOp
  | showPage : PdfOp
  deriving DecidableEq

/-- One reportlab millimetre in points (`inch = 72`, `cm = inch/2.54`,
`mm = cm/10`), modelled as an exact rational. -/
def mmUnit : ℚ := 72 / (254 / 100) / 10

/-- reportlab A4 width: 210 mm in points. -/
def A4width : ℚ := 210 * mmUnit

/-- reportlab A4 height: 297 mm in points. -/
def A4height : ℚ := 297 * mmUnit

/-- Python `f"{wrong:<20} → {correct}"`: the misspelled word padded
with spaces to a minimum width of 20, an arrow, the suggestion. -/
def pdfLine (wrong correct : List Char) : List Char :=
  wrong ++ List.replicate (20 - wrong.length) ' ' ++ " → ".data ++ correct

/-- Loop body of the PDF correction list (lines 114-121): when the
cursor is below 70 a new page is started, the cursor is reset to the
top margin and the font is re-applied; then the entry line is drawn
and the cursor moves down 20 points. -/
def pdfListStep (st : List PdfOp × ℚ) (entry : List Char × List Char) : List PdfOp × ℚ :=
  if st.2 < 70 then
    (st.1 ++ [PdfOp.showPage, PdfOp.setFont "Helvetica" 12,
        PdfOp.drawString 50 (A4height - 50) (pdfLine entry.1 entry.2)],
      A4height - 50 - 20)
  else
    (st.1 ++ [PdfOp.drawString 50 st.2 (pdfLine entry.1 entry.2)], st.2 - 20)

/-- Fixed part of the PDF report before the correction list (lines
71-109): title, date line, divider, summary block, divider, list
header, and the list font; the y coordinates spell out the successive
decrements of the source's cursor variable. -/
def pdfHeader (total_words error_words : Nat) (today : List Char) : List PdfOp :=
  [PdfOp.setFont "Helvetica-Bold" 20,
   PdfOp.drawString 50 (A4height - 50) "맞춤법 검사 결과 보고서".data,
   PdfOp.setFont "Helvetica" 12,
   PdfOp.drawString 50 (A4height - 50 - 30) ("생성 일시: ".data ++ today),
   PdfOp.setStrokeColor (2 / 5) (2 / 5) (2 / 5),
   PdfOp.line 50 (A4height - 50 - 30 - 20) (A4width - 50) (A4height - 50 - 30 - 20),
   PdfOp.setFont "Helvetica-Bold" 14,
   PdfOp.drawString 50 (A4height - 50 - 30 - 20 - 30) "요약 정보".data,
   PdfOp.setFont "Helvetica" 12,
   PdfOp.drawString 50 (A4height - 50 - 30 - 20 - 30 - 25)
     ("- 총 단어 수: ".data ++ (toString total_words).data),
   PdfOp.drawString 50 (A4height - 50 - 30 - 20 - 30 - 25 - 20)
     ("- 오류 단어 수: ".data ++ (toString error_words).data),
   PdfOp.line 50 (A4height - 50 - 30 - 20 - 30 - 25 - 20 - 35) (A4width - 50)
     (A4height - 50 - 30 - 20 - 30 - 25 - 20 - 35),
   PdfOp.setFont "Helvetica-Bold" 14,
   PdfOp.drawString 50 (A4height - 50 - 30 - 20 - 30 - 25 - 20 - 35 - 30) "오류 단어 목록".data,
   PdfOp.setFont "Helvetica" 12]

/-- Cursor position at the start of the correction list: the top
margin minus all the header decrements. -/
def listStartY : ℚ := A4height - 50 - 30 - 20 - 30 - 25 - 20 - 35 - 30 - 25

/-- Source `make_pdf` (lines 65-126) as the sequence of emitted canvas
operations; the generation timestamp is the only external input and is
passed as the `today` parameter. -/
def make_pdf (corrections : List (List Char × List Char)) (total_words error_words : Nat)
    (today : List Char) : List PdfOp :=
  (if corrections.length = 0 then
    (pdfHeader total_words error_words today ++
      [PdfOp.drawString 50 listStartY "(오류 없음)".data], listStartY - 20)
  else corrections.foldl pdfListStep (pdfHeader total_words error_words today, listStartY)).1 ++
    [PdfOp.showPage]

/-- Recognizer for text-drawing operations. -/
def isDrawString : PdfOp → Bool
  | PdfOp.drawString _ _ _ => true
  | _ => false

/-- Pagination discipline: every page break in the operation list is
immediately followed by a re-application of the list font and then a
draw at the reset cursor position, the top margin. -/
def fontReappliedAfterBreaks (l : List PdfOp) : Prop :=
  ∀ i, l.get? i = some PdfOp.showPage →
    l.get? (i + 1) = some (PdfOp.setFont "Helvetica" 12) ∧
      ∃ s, l.get? (i + 2) = some (PdfOp.drawString 50 (A4height - 50) s)

-- Theorems about the embedded pipeline follow.

/-- C1: on the input `Teh qick fox jumps over teh lazy dog NASA OK ok`
with an oracle reporting `teh` and `qick` unknown (suggesting `the` and
`quick`) and everything else known, the analysis yields the corrections
`Teh ↦ the`, `qick ↦ quick`, `teh ↦ the` (in insertion order) with
`error_count = 3`, the word counter yields `total_words = 11`, and the
candidate tokens are exactly the eight words other than `NASA`, `OK`
and `ok`, which are therefore never submitted as candidates. -/
theorem scenario_teh_qick :
    analyze_spelling "Teh qick fox jumps over teh lazy dog NASA OK ok".data oracleC1 =
      ([("Teh".data, "the".data), ("qick".data, "quick".data), ("teh".data, "the".data)], 3) ∧
    count_real_words "Teh qick fox jumps over teh lazy dog NASA OK ok".data = 11 ∧
    ((tokenize_text "Teh qick fox jumps over teh lazy dog NASA OK ok".data).filter
        fun tc => is_candidate_word tc.2).map Prod.fst =
      ["Teh".data, "qick".data, "fox".data, "jumps".data, "over".data, "teh".data,
        "lazy".data, "dog".data] := by
  decide

/-- C2 counterexample: `is_candidate_word` follows Python's Unicode
`str.isalpha`, so the string `abé` (whose `é` is alphabetic but not an
ASCII letter) is accepted even though not every character is an ASCII
letter; the claimed characterization fails for it. -/
theorem is_candidate_word_not_ascii_only :
    is_candidate_word "abé".data = true ∧ "abé".data.all isAsciiLetter = false := by
  decide

theorem pyCharIsAlpha_ascii {c : Char} (hc : c.toNat ≤ 127) :
    pyCharIsAlpha c = isAsciiLetter c := by
  have h : ¬(192 ≤ c.toNat ∧ c.toNat ≤ 255 ∧ c.toNat ≠ 215 ∧ c.toNat ≠ 247) := by omega
  simp [pyCharIsAlpha, h]

theorem pyCharIsUpperChar_ascii {c : Char} (hc : c.toNat ≤ 127) :
    pyCharIsUpperChar c = decide (65 ≤ c.toNat ∧ c.toNat ≤ 90) := by
  have h : ¬(192 ≤ c.toNat ∧ c.toNat ≤ 222 ∧ c.toNat ≠ 215) := by
    omega
  simp [pyCharIsUpperChar, h]

theorem pyCharIsCased_of_asciiLetter {c : Char} (hc : isAsciiLetter c = true) :
    pyCharIsCased c = true := by
  simp only [isAsciiLetter, Bool.or_eq_true, decide_eq_true_eq] at hc
  simp only [pyCharIsCased, pyCharIsUpperChar, pyCharIsLowerChar, Bool.or_eq_true,
    decide_eq_true_eq]
  omega

/-- C2 amended: restricted to strings of ASCII characters (which is all
the pipeline ever passes to it), `is_candidate_word` returns `true`
exactly when every character is an ASCII letter, the length exceeds 2,
and the string is not fully upper-case; in particular `ok` is never a
candidate, `cat` is, and `USA` is not. -/
theorem is_candidate_word_spec :
    (∀ t : List Char, (∀ c ∈ t, c.toNat ≤ 127) →
      (is_candidate_word t = true ↔
        (∀ c ∈ t, isAsciiLetter c = true) ∧ 2 < t.length ∧
          ¬ ∀ c ∈ t, 65 ≤ c.toNat ∧ c.toNat ≤ 90)) ∧
    is_candidate_word "ok".data = false ∧
    is_candidate_word "cat".data = true ∧
    is_candidate_word "USA".data = false := by
  refine ⟨?_, by decide, by decide, by decide⟩
  intro t h
  simp only [is_candidate_word, Bool.and_eq_true, Bool.not_eq_true', pyIsAlpha,
    List.all_eq_true, decide_eq_true_eq]
  constructor
  · rintro ⟨⟨⟨hne, halpha⟩, hlen⟩, hup⟩
    refine ⟨fun c hc => ?_, hlen, fun hallup => ?_⟩
    · rw [← pyCharIsAlpha_ascii (h c hc)]
      exact halpha c hc
    · have : pyIsUpper t = true := by
        cases t with
        | nil => simp at hlen
        | cons c cs =>
          simp only [pyIsUpper, Bool.and_eq_true, List.any_eq_true, List.all_eq_true]
          constructor
          · refine ⟨c, by simp, ?_⟩
            apply pyCharIsCased_of_asciiLetter
            rw [← pyCharIsAlpha_ascii (h c (by simp))]
            exact halpha c (by simp)
          · intro x hx
            have hxu : pyCharIsUpperChar x = true := by
              rw [pyCharIsUpperChar_ascii (h x hx), decide_eq_true_eq]
              exact hallup x hx
            simp [hxu]
      rw [this] at hup
      exact absurd hup (by simp)
  · rintro ⟨halpha, hlen, hnotup⟩
    have hne : ¬t.isEmpty = true := by
      cases t with
      | nil => simp at hlen
      | cons c cs => simp
    refine ⟨⟨⟨by simpa using hne, fun c hc => ?_⟩, hlen⟩, ?_⟩
    · rw [pyCharIsAlpha_ascii (h c hc)]
      exact halpha c hc
    · rw [Classical.not_forall] at hnotup
      obtain ⟨c, hc⟩ := hnotup
      rw [Classical.not_imp] at hc
      obtain ⟨hcmem, hcnot⟩ := hc
      have hcl : isAsciiLetter c = true := halpha c hcmem
      simp only [isAsciiLetter, Bool.or_eq_true, decide_eq_true_eq] at hcl
      have hclow : 97 ≤ c.toNat ∧ c.toNat ≤ 122 := by omega
      simp only [pyIsUpper, Bool.and_eq_false_iff]
      right
      simp only [List.all_eq_false]
      refine ⟨c, hcmem, ?_⟩
      have hcc : pyCharIsCased c = true :=
        pyCharIsCased_of_asciiLetter (halpha c hcmem)
      have hcu : pyCharIsUpperChar c = false := by
        rw [pyCharIsUpperChar_ascii (h c hcmem)]
        simp only [decide_eq_false_iff_not]
        omega
      simp [hcc, hcu]

/-- Witness for the amended C2 theorem at the concrete candidate `cat`. -/
theorem is_candidate_word_spec_witness :
    is_candidate_word "cat".data = true ↔
      (∀ c ∈ "cat".data, isAsciiLetter c = true) ∧ 2 < "cat".data.length ∧
        ¬ ∀ c ∈ "cat".data, 65 ≤ c.toNat ∧ c.toNat ≤ 90 :=
  is_candidate_word_spec.1 "cat".data (by decide)

theorem unknown_singleton (sc : SpellChecker) (lw : List Char) :
    (sc.unknown [lw]).contains lw = !sc.known lw := by
  cases hk : sc.known lw <;> simp [SpellChecker.unknown, hk]

theorem tokenize_mem {text : List Char} {tc : List Char × List Char}
    (h : tc ∈ tokenize_text text) :
    tc.2 = tc.1.filter isAsciiLetter ∧ tc.2.isEmpty = false := by
  simp only [tokenize_text, List.mem_filterMap] at h
  obtain ⟨a, _, ha⟩ := h
  by_cases he : (a.filter isAsciiLetter).isEmpty = true
  · rw [if_pos he] at ha
    exact absurd ha (by simp)
  · rw [if_neg he] at ha
    obtain rfl := Option.some_injective _ ha
    exact ⟨rfl, by simpa using he⟩

theorem dictInsert_mem {m : List (List Char × List Char)} {k v : List Char}
    {p : List Char × List Char} (h : p ∈ dictInsert m k v) :
    p ∈ m ∨ p = (k, v) := by
  unfold dictInsert at h
  split at h
  · simp only [List.mem_map] at h
    obtain ⟨q, hq, hqe⟩ := h
    by_cases hk : q.1 == k
    · right
      rw [← hqe, if_pos hk]
    · left
      rw [← hqe, if_neg hk]
      exact hq
  · rw [List.mem_append] at h
    rcases h with h | h
    · exact Or.inl h
    · exact Or.inr (by simpa using h)

theorem analyze_foldl_inv (sc : SpellChecker) (Q : List Char × List Char → Prop)
    (l : List (List Char × List Char)) (st : List (List Char × List Char) × Nat)
    (hst : ∀ p ∈ st.1, Q p)
    (hl : ∀ tc ∈ l, is_candidate_word tc.2 = true →
      Q (tc.1, pyOr (sc.correction (pyLower tc.2)) tc.1)) :
    ∀ p ∈ (l.foldl (analyzeStep sc) st).1, Q p := by
  induction l generalizing st with
  | nil => exact hst
  | cons tc rest ih =>
    refine ih (analyzeStep sc st tc) ?_ fun x hx hcx => hl x (List.mem_cons_of_mem _ hx) hcx
    intro p hp
    simp only [analyzeStep] at hp
    split at hp
    case isTrue hc =>
      split at hp
      · rcases dictInsert_mem hp with hm | he
        · exact hst p hm
        · rw [he]
          exact hl tc (List.mem_cons_self _ _) hc
      · exact hst p hp
    case isFalse => exact hst p hp

theorem analyze_mem {text : List Char} {sc : SpellChecker} {p : List Char × List Char}
    (hp : p ∈ (analyze_spelling text sc).1) :
    is_candidate_word (p.1.filter isAsciiLetter) = true ∧
      p.2 = pyOr (sc.correction (pyLower (p.1.filter isAsciiLetter))) p.1 := by
  refine analyze_foldl_inv sc
    (fun q => is_candidate_word (q.1.filter isAsciiLetter) = true ∧
      q.2 = pyOr (sc.correction (pyLower (q.1.filter isAsciiLetter))) q.1)
    (tokenize_text text) ([], 0) (by simp) ?_ p hp
  intro tc htc hc
  obtain ⟨hfe, _⟩ := tokenize_mem htc
  refine ⟨?_, ?_⟩
  · rw [← hfe]
    exact hc
  · rw [← hfe]

/-- C5: every value stored in the corrections mapping is non-empty, and
whenever the oracle offers no suggestion for the flagged word (the
lower-cased normalized form of the key), the stored value is exactly
the original surface form, which is the key itself. -/
theorem corrections_values_nonempty :
    ∀ (text : List Char) (sc : SpellChecker) (p : List Char × List Char),
      p ∈ (analyze_spelling text sc).1 →
        p.2 ≠ [] ∧
          (sc.correction (pyLower (p.1.filter isAsciiLetter)) = none → p.2 = p.1) := by
  intro text sc p hp
  obtain ⟨hcand, hval⟩ := analyze_mem hp
  have hp1 : p.1 ≠ [] := by
    intro he
    rw [he] at hcand
    simp [is_candidate_word, pyIsAlpha] at hcand
  refine ⟨?_, ?_⟩
  · rw [hval]
    cases ho : sc.correction (pyLower (p.1.filter isAsciiLetter)) with
    | none => exact hp1
    | some s =>
      simp only [pyOr]
      by_cases hs : s.isEmpty = true
      · rw [if_pos hs]
        exact hp1
      · rw [if_neg hs]
        intro he
        rw [he] at hs
        exact hs rfl
  · intro ho
    rw [hval, ho]
    rfl

/-- Witness for C5: the oracle `oracleNoSuggest` flags `teh` with no
suggestion, and the stored value is the surface form itself. -/
theorem corrections_values_nonempty_witness :
    (("teh".data, "teh".data) : List Char × List Char).2 ≠ [] ∧
      (oracleNoSuggest.correction
          (pyLower ((("teh".data, "teh".data) : List Char × List Char).1.filter isAsciiLetter)) =
            none →
        (("teh".data, "teh".data) : List Char × List Char).2 =
          (("teh".data, "teh".data) : List Char × List Char).1) :=
  corrections_values_nonempty "teh".data oracleNoSuggest ("teh".data, "teh".data) (by decide)

/-- C6: every key of the corrections mapping, normalized by removing
every non-ASCII-letter character, passes the candidate filter. -/
theorem corrections_keys_candidate :
    ∀ (text : List Char) (sc : SpellChecker) (p : List Char × List Char),
      p ∈ (analyze_spelling text sc).1 →
        is_candidate_word (p.1.filter isAsciiLetter) = true :=
  fun _ _ _ hp => (analyze_mem hp).1

/-- Witness for C6 at the flagged key `teh` of the scenario oracle. -/
theorem corrections_keys_candidate_witness :
    is_candidate_word
      ((("teh".data, "the".data) : List Char × List Char).1.filter isAsciiLetter) = true :=
  corrections_keys_candidate "teh".data oracleC1 ("teh".data, "the".data) (by decide)

theorem dictInsert_lookup_replace {k v : List Char} :
    ∀ m : List (List Char × List Char), m.any (fun p => p.1 == k) = true →
      (m.map fun p => if p.1 == k then (k, v) else p).lookup k = some v := by
  intro m
  induction m with
  | nil => intro h; simp at h
  | cons p ps ih =>
    intro h
    cases p with
    | mk a b =>
      by_cases hk : a == k
      · simp only [List.map_cons]
        rw [if_pos hk]
        simp [List.lookup]
      · simp only [List.map_cons]
        rw [if_neg hk]
        have hk2 : (k == a) = false := by
          rw [beq_eq_false_iff_ne]
          intro he
          subst he
          simp at hk
        simp only [List.lookup, hk2]
        apply ih
        simp only [List.any_cons, Bool.or_eq_true] at h
        rcases h with h | h
        · exact absurd h (by simp [hk])
        · exact h

theorem dictInsert_lookup_append {k v : List Char} :
    ∀ m : List (List Char × List Char), m.any (fun p => p.1 == k) = false →
      (m ++ [(k, v)]).lookup k = some v := by
  intro m
  induction m with
  | nil => simp [List.lookup]
  | cons p ps ih =>
    intro h
    cases p with
    | mk a b =>
      simp only [List.any_cons, Bool.or_eq_false_iff] at h
      have hk2 : (k == a) = false := by
        rw [beq_eq_false_iff_ne]
        intro he
        subst he
        simp at h
      simp only [List.cons_append, List.lookup, hk2]
      exact ih h.2

theorem dictInsert_lookup (m : List (List Char × List Char)) (k v : List Char) :
    (dictInsert m k v).lookup k = some v := by
  unfold dictInsert
  split
  case isTrue h => exact dictInsert_lookup_replace m h
  case isFalse h => exact dictInsert_lookup_append m (Bool.eq_false_iff.mpr h)

theorem analyzeStep_errors (sc : SpellChecker) (st : List (List Char × List Char) × Nat)
    (tc : List Char × List Char) :
    (analyzeStep sc st tc).2 =
      st.2 + (if is_candidate_word tc.2 && !sc.known (pyLower tc.2) then 1 else 0) := by
  simp only [analyzeStep, unknown_singleton]
  by_cases hc : is_candidate_word tc.2 = true
  · by_cases hk : sc.known (pyLower tc.2) = true
    · simp [hc, hk]
    · simp only [Bool.not_eq_true] at hk
      simp [hc, hk]
  · simp only [Bool.not_eq_true] at hc
    simp [hc]

theorem analyze_foldl_errors (sc : SpellChecker) :
    ∀ (l : List (List Char × List Char)) (st : List (List Char × List Char) × Nat),
      (l.foldl (analyzeStep sc) st).2 =
        st.2 + l.countP (fun tc => is_candidate_word tc.2 && !sc.known (pyLower tc.2)) := by
  intro l
  induction l with
  | nil => intro st; simp
  | cons tc rest ih =>
    intro st
    rw [List.foldl_cons, ih, List.countP_cons, analyzeStep_errors]
    by_cases hc : (is_candidate_word tc.2 && !sc.known (pyLower tc.2)) = true
    · simp [hc]
      omega
    · simp only [Bool.not_eq_true] at hc
      simp [hc]

theorem dictInsert_keys_nodup {m : List (List Char × List Char)} {k v : List Char}
    (h : (m.map Prod.fst).Nodup) : ((dictInsert m k v).map Prod.fst).Nodup := by
  unfold dictInsert
  split
  case isTrue hk =>
    have he : (m.map fun p => if p.1 == k then (k, v) else p).map Prod.fst = m.map Prod.fst := by
      rw [List.map_map]
      apply List.map_congr_left
      intro p _
      by_cases hpk : p.1 == k
      · simp only [Function.comp_apply, if_pos hpk]
        exact (eq_of_beq hpk).symm
      · simp only [Function.comp_apply, if_neg hpk]
    rw [he]
    exact h
  case isFalse hk =>
    rw [List.map_append, List.nodup_append]
    refine ⟨h, by simp, ?_⟩
    intro a ha hb
    simp only [List.map_cons, List.map_nil, List.mem_singleton] at hb
    subst hb
    apply hk
    rw [List.any_eq_true]
    rw [List.mem_map] at ha
    obtain ⟨p, hp, hpa⟩ := ha
    exact ⟨p, hp, by rw [hpa]; simp⟩

theorem analyze_foldl_nodup (sc : SpellChecker) :
    ∀ (l : List (List Char × List Char)) (st : List (List Char × List Char) × Nat),
      (st.1.map Prod.fst).Nodup → (((l.foldl (analyzeStep sc) st).1.map Prod.fst)).Nodup := by
  intro l
  induction l with
  | nil => intro st h; exact h
  | cons tc rest ih =>
    intro st h
    rw [List.foldl_cons]
    apply ih
    simp only [analyzeStep]
    split
    · split
      · exact dictInsert_keys_nodup h
      · exact h
    · exact h

theorem dictInsert_length (m : List (List Char × List Char)) (k v : List Char) :
    (dictInsert m k v).length ≤ m.length + 1 := by
  unfold dictInsert
  split
  · rw [List.length_map]
    omega
  · rw [List.length_append]
    simp

theorem analyze_foldl_len (sc : SpellChecker) :
    ∀ (l : List (List Char × List Char)) (st : List (List Char × List Char) × Nat),
      (l.foldl (analyzeStep sc) st).1.length + st.2 ≤
        st.1.length + (l.foldl (analyzeStep sc) st).2 := by
  intro l
  induction l with
  | nil => intro st; simp
  | cons tc rest ih =>
    intro st
    rw [List.foldl_cons]
    have h1 := ih (analyzeStep sc st tc)
    have h2 : (analyzeStep sc st tc).1.length + st.2 ≤
        st.1.length + (analyzeStep sc st tc).2 := by
      simp only [analyzeStep]
      split
      · split
        · have := dictInsert_length st.1 tc.1 (pyOr (sc.correction (pyLower tc.2)) tc.1)
          simp only
          omega
        · omega
      · omega
    omega

/-- C4: reading a key after a dictionary write returns the written
value (last-write-wins), the error count is exactly the number of
flagged token occurrences (incremented whether or not the key already
existed), the keys of the corrections mapping stay unique, and hence
the number of entries of the mapping never exceeds the error count. -/
theorem analyze_last_write_wins :
    (∀ (m : List (List Char × List Char)) (k v : List Char),
      (dictInsert m k v).lookup k = some v) ∧
    (∀ (text : List Char) (sc : SpellChecker),
      (analyze_spelling text sc).2 =
        (tokenize_text text).countP
          (fun tc => is_candidate_word tc.2 && !sc.known (pyLower tc.2))) ∧
    (∀ (text : List Char) (sc : SpellChecker),
      ((analyze_spelling text sc).1.map Prod.fst).Nodup) ∧
    (∀ (text : List Char) (sc : SpellChecker),
      (analyze_spelling text sc).1.length ≤ (analyze_spelling text sc).2) := by
  refine ⟨dictInsert_lookup, fun text sc => ?_, fun text sc => ?_, fun text sc => ?_⟩
  · rw [analyze_spelling, analyze_foldl_errors]
    simp
  · exact analyze_foldl_nodup sc (tokenize_text text) ([], 0) (by simp)
  · have h := analyze_foldl_len sc (tokenize_text text) ([], 0)
    simp at h
    simpa [analyze_spelling] using h

theorem foldl_congr_mem {α β : Type} (f g : β → α → β) :
    ∀ (l : List α) (st : β), (∀ st2 x, x ∈ l → f st2 x = g st2 x) →
      l.foldl f st = l.foldl g st := by
  intro l
  induction l with
  | nil => intro st _; rfl
  | cons x rest ih =>
    intro st h
    rw [List.foldl_cons, List.foldl_cons, h st x (by simp)]
    exact ih _ fun st2 y hy => h st2 y (by simp [hy])

theorem foldl_filter_lift {α β : Type} (p : α → Bool) (f : β → α → β) :
    ∀ (l : List α) (st : β),
      (l.filter p).foldl f st = l.foldl (fun st2 x => if p x then f st2 x else st2) st := by
  intro l
  induction l with
  | nil => intro st; rfl
  | cons x rest ih =>
    intro st
    cases hp : p x <;> simp [List.filter_cons, hp, ih]

theorem contains_filter_eq {w : List Char} {q : List Char → Bool} {L : List (List Char)}
    (hw : w ∈ L) : (L.filter q).contains w = q w := by
  by_cases hq : q w = true
  · rw [hq]
    have hmem : w ∈ L.filter q := List.mem_filter.mpr ⟨hw, hq⟩
    exact List.elem_eq_true_of_mem hmem
  · have hq2 : q w = false := Bool.eq_false_iff.mpr hq
    rw [hq2]
    cases h2 : (L.filter q).contains w
    · rfl
    · have hmem := List.mem_of_elem_eq_true h2
      have := (List.mem_filter.mp hmem).2
      rw [hq2] at this
      exact absurd this (by simp)

/-- C7: the per-token analyzer of the source (which queries the oracle
with a singleton unknown-batch for each candidate) computes exactly the
same result as the reference analyzer that gathers all candidates first
and performs one bulk unknown-query over all of them. -/
theorem analyze_batch_refinement :
    ∀ (text : List Char) (sc : SpellChecker),
      analyze_spelling text sc = analyze_spelling_batch text sc := by
  intro text sc
  simp only [analyze_spelling, analyze_spelling_batch]
  rw [foldl_filter_lift]
  apply foldl_congr_mem
  intro st tc htc
  simp only [analyzeStep, unknown_singleton]
  by_cases hc : is_candidate_word tc.2 = true
  · rw [if_pos hc, if_pos hc]
    have hmem : pyLower tc.2 ∈
        (((tokenize_text text).filter fun tc2 => is_candidate_word tc2.2).map
          fun tc2 => pyLower tc2.2) :=
      List.mem_map.mpr ⟨tc, List.mem_filter.mpr ⟨htc, hc⟩, rfl⟩
    rw [SpellChecker.unknown, contains_filter_eq hmem]
  · rw [if_neg hc, if_neg hc]

theorem pyIsSpace_not_letter {c : Char} (h : pyIsSpace c = true) :
    isAsciiLetter c = false := by
  simp only [pyIsSpace, Bool.or_eq_true, decide_eq_true_eq] at h
  simp only [isAsciiLetter, Bool.or_eq_false_iff, decide_eq_false_iff_not]
  omega

theorem splitWsAux_countP :
    ∀ (l : List Char) (acc : List Char) (b : Bool),
      (b = true → acc.any isAsciiLetter = true) →
      ((splitWsAux l acc).countP fun t => t.any isAsciiLetter) ≤
        countRuns l b + (if acc.any isAsciiLetter then 1 else 0) := by
  intro l
  induction l with
  | nil =>
    intro acc b _
    simp only [splitWsAux, countRuns, List.countP_cons, List.countP_nil, List.any_reverse]
    split <;> simp
  | cons c rest ih =>
    intro acc b hb
    by_cases hs : pyIsSpace c = true
    · have hcl : isAsciiLetter c = false := pyIsSpace_not_letter hs
      simp only [splitWsAux, if_pos hs, countRuns, hcl, List.countP_cons, List.any_reverse]
      have h2 := ih [] false (by simp)
      simp at h2
      split <;> simp <;> omega
    · by_cases hl : isAsciiLetter c = true
      · have h2 := ih (c :: acc) true (fun _ => by simp [hl])
        simp only [splitWsAux, if_neg hs, countRuns, hl, if_pos]
        rw [List.any_cons] at h2
        simp only [hl, Bool.true_or, if_pos] at h2
        cases b with
        | true =>
          rw [if_pos rfl, if_pos (hb rfl)]
          omega
        | false =>
          rw [if_neg Bool.false_ne_true]
          split <;> omega
      · have hlf : isAsciiLetter c = false := Bool.eq_false_iff.mpr hl
        have h2 := ih (c :: acc) false (by simp)
        simp only [splitWsAux, if_neg hs, countRuns, hlf]
        rw [List.any_cons] at h2
        simp only [hlf, Bool.false_or] at h2
        exact h2

theorem length_filterMap_eq {α β : Type} (f : α → Option β) :
    ∀ l : List α, (l.filterMap f).length = l.countP fun a => (f a).isSome := by
  intro l
  induction l with
  | nil => rfl
  | cons x rest ih =>
    cases hf : f x <;>
      simp [List.filterMap_cons, hf, List.countP_cons, ih]

theorem any_eq_not_isEmpty_filter (p : Char → Bool) :
    ∀ t : List Char, t.any p = !(t.filter p).isEmpty := by
  intro t
  induction t with
  | nil => rfl
  | cons c cs ih =>
    cases hc : p c <;> simp [List.filter_cons, List.any_cons, hc, ih]

theorem countP_filter_own {α : Type} (p q : α → Bool) :
    ∀ l : List α, (l.filter q).countP p = l.countP fun a => p a && q a := by
  intro l
  induction l with
  | nil => rfl
  | cons x rest ih =>
    cases hq : q x <;> cases hp : p x <;>
      simp [List.filter_cons, List.countP_cons, hq, hp, ih]

theorem tokenize_length_le (text : List Char) :
    (tokenize_text text).length ≤ count_real_words text := by
  have h1 : (tokenize_text text).length =
      (splitWsAux text []).countP fun t => t.any isAsciiLetter := by
    rw [tokenize_text, length_filterMap_eq, pySplit, countP_filter_own]
    apply List.countP_congr
    intro t _
    by_cases he : (t.filter isAsciiLetter).isEmpty = true
    · simp [he, any_eq_not_isEmpty_filter]
    · have ht : t.isEmpty = false := by
        cases t with
        | nil => exact absurd (by rfl) he
        | cons c cs => rfl
      simp [he, ht, any_eq_not_isEmpty_filter]
  have h2 := splitWsAux_countP text [] false (by simp)
  simp only [List.any_nil, Bool.false_eq_true, if_false] at h2
  rw [count_real_words]
  omega

/-- C10: the tokenizer produces at most as many tokens as the word
counter counts maximal ASCII-letter runs: every kept token contains at
least one letter, the split separators are non-letters, so runs never
span two tokens. -/
theorem tokens_le_total_words :
    ∀ text : List Char, (tokenize_text text).length ≤ count_real_words text :=
  tokenize_length_le

theorem errors_le_total (text : List Char) (sc : SpellChecker) :
    (analyze_spelling text sc).2 ≤ count_real_words text := by
  have h1 : (analyze_spelling text sc).2 =
      (tokenize_text text).countP
        (fun tc => is_candidate_word tc.2 && !sc.known (pyLower tc.2)) := by
    rw [analyze_spelling, analyze_foldl_errors]
    simp
  have h2 := List.countP_le_length
    (fun tc => is_candidate_word tc.2 && !sc.known (pyLower tc.2))
    (l := tokenize_text text)
  have h3 := tokenize_length_le text
  omega

/-- C3 counterexample to the claim as stated: there is no input text
and oracle for which the error count exceeds the total word count; the
code does guarantee the bound. -/
theorem error_count_gt_total_unsat :
    ¬ ∃ (text : List Char) (sc : SpellChecker),
        count_real_words text < (analyze_spelling text sc).2 := by
  rintro ⟨text, sc, h⟩
  exact absurd h (not_lt.mpr (errors_le_total text sc))

/-- C3 amended: for every input text and every oracle the analyzer's
error count is at most the word counter's total: every flagged
occurrence is a distinct token, every token contains an ASCII letter,
and letter runs never span two tokens. -/
theorem error_count_le_total_words :
    ∀ (text : List Char) (sc : SpellChecker),
      (analyze_spelling text sc).2 ≤ count_real_words text :=
  errors_le_total

theorem foldl_append_rows (α : Type) (g : α → List String) :
    ∀ (l : List α) (init : List (List String)),
      l.foldl (fun rs p => rs ++ [g p]) init = init ++ l.map g := by
  intro l
  induction l with
  | nil => intro init; simp
  | cons x rest ih =>
    intro init
    rw [List.foldl_cons, ih, List.map_cons]
    simp

/-- C8: the CSV report is exactly a header row, one row per entry of
the corrections mapping in its insertion (iteration) order, a blank
separator row, the total-word-count row and the error-count row, and
nothing else. -/
theorem csv_rows_spec :
    ∀ (corrections : List (List Char × List Char)) (t e : Nat),
      csv_rows corrections t e =
        ["잘못된 단어", "수정 제안"] ::
          ((corrections.map fun p => [p.1.asString, p.2.asString]) ++
            [[], ["총 단어 수", toString t], ["오류 단어 수", toString e]]) := by
  intro cs t e
  simp only [csv_rows]
  rw [foldl_append_rows (List Char × List Char) fun p => [p.1.asString, p.2.asString]]
  simp

theorem fontReapplied_no_break {l : List PdfOp}
    (h : ∀ op ∈ l, op ≠ PdfOp.showPage) : fontReappliedAfterBreaks l := by
  intro i hi
  have hm := List.get?_mem hi
  exact absurd rfl (h _ hm)

theorem fontReapplied_append {l1 l2 : List PdfOp}
    (h1 : fontReappliedAfterBreaks l1) (h2 : fontReappliedAfterBreaks l2) :
    fontReappliedAfterBreaks (l1 ++ l2) := by
  intro i hi
  by_cases hlt : i < l1.length
  · rw [List.get?_append hlt] at hi
    obtain ⟨ha, s, hb⟩ := h1 i hi
    have hb1 : i + 1 < l1.length := (List.get?_eq_some.mp ha).1
    have hb2 : i + 2 < l1.length := (List.get?_eq_some.mp hb).1
    exact ⟨by rw [List.get?_append hb1]; exact ha, s, by rw [List.get?_append hb2]; exact hb⟩
  · have hge : l1.length ≤ i := Nat.le_of_not_lt hlt
    rw [List.get?_append_right hge] at hi
    obtain ⟨ha, s, hb⟩ := h2 _ hi
    refine ⟨?_, s, ?_⟩
    · rw [List.get?_append_right (by omega), show i + 1 - l1.length = i - l1.length + 1 by omega]
      exact ha
    · rw [List.get?_append_right (by omega), show i + 2 - l1.length = i - l1.length + 2 by omega]
      exact hb

theorem fontReapplied_break_block (s : List Char) :
    fontReappliedAfterBreaks
      [PdfOp.showPage, PdfOp.setFont "Helvetica" 12, PdfOp.drawString 50 (A4height - 50) s] := by
  intro i hi
  match i with
  | 0 => exact ⟨rfl, s, rfl⟩
  | 1 => simp at hi
  | 2 => simp at hi
  | n + 3 => simp at hi

theorem pdfHeader_no_break (t e : Nat) (today : List Char) :
    ∀ op ∈ pdfHeader t e today, op ≠ PdfOp.showPage := by
  intro op hop
  fin_cases hop <;> simp

theorem fontReapplied_fold (cs : List (List Char × List Char)) :
    ∀ st : List PdfOp × ℚ, fontReappliedAfterBreaks st.1 →
      fontReappliedAfterBreaks (cs.foldl pdfListStep st).1 := by
  induction cs with
  | nil => intro st h; exact h
  | cons c rest ih =>
    intro st h
    rw [List.foldl_cons]
    apply ih
    simp only [pdfListStep]
    split
    · exact fontReapplied_append h (fontReapplied_break_block _)
    · refine fontReapplied_append h (fontReapplied_no_break ?_)
      intro op hop
      rw [List.mem_singleton] at hop
      subst hop
      simp

theorem fontReapplied_final {body : List PdfOp} (hb : fontReappliedAfterBreaks body) :
    ∀ i, (body ++ [PdfOp.showPage]).get? i = some PdfOp.showPage →
      i + 1 = (body ++ [PdfOp.showPage]).length ∨
        ((body ++ [PdfOp.showPage]).get? (i + 1) = some (PdfOp.setFont "Helvetica" 12) ∧
          ∃ s, (body ++ [PdfOp.showPage]).get? (i + 2) =
            some (PdfOp.drawString 50 (A4height - 50) s)) := by
  intro i hi
  by_cases hlt : i < body.length
  · right
    rw [List.get?_append hlt] at hi
    obtain ⟨ha, s, hb2⟩ := hb i hi
    have h1 : i + 1 < body.length := (List.get?_eq_some.mp ha).1
    have h2 : i + 2 < body.length := (List.get?_eq_some.mp hb2).1
    exact ⟨by rw [List.get?_append h1]; exact ha, s, by rw [List.get?_append h2]; exact hb2⟩
  · left
    have hge : body.length ≤ i := Nat.le_of_not_lt hlt
    rw [List.get?_append_right hge] at hi
    have hz : i - body.length = 0 := by
      by_contra hne
      obtain ⟨m, hm⟩ := Nat.exists_eq_succ_of_ne_zero hne
      rw [hm] at hi
      simp at hi
    rw [List.length_append]
    simp only [List.length_cons, List.length_nil]
    omega

theorem countP_fold_pdf (cs : List (List Char × List Char)) :
    ∀ st : List PdfOp × ℚ,
      ((cs.foldl pdfListStep st).1).countP isDrawString =
        st.1.countP isDrawString + cs.length := by
  induction cs with
  | nil => intro st; simp
  | cons c rest ih =>
    intro st
    rw [List.foldl_cons, ih]
    simp only [pdfListStep]
    split <;> simp [List.countP_append, List.countP_cons, isDrawString] <;> omega

theorem pdfHeader_countP (t e : Nat) (today : List Char) :
    (pdfHeader t e today).countP isDrawString = 6 := by
  simp [pdfHeader, List.countP_cons, isDrawString]

/-- C9: in the PDF operation stream, every page break is either the
final page flush or is immediately followed by a re-application of the
list font and a draw at the reset top-margin cursor before any further
line is drawn; when the corrections mapping is empty the list block is
the single placeholder line, and in general the stream draws exactly
six header lines plus one line per correction (or the one placeholder). -/
theorem make_pdf_pagination :
    ∀ (cs : List (List Char × List Char)) (t e : Nat) (today : List Char),
      (∀ i, (make_pdf cs t e today).get? i = some PdfOp.showPage →
        i + 1 = (make_pdf cs t e today).length ∨
          ((make_pdf cs t e today).get? (i + 1) = some (PdfOp.setFont "Helvetica" 12) ∧
            ∃ s, (make_pdf cs t e today).get? (i + 2) =
              some (PdfOp.drawString 50 (A4height - 50) s))) ∧
      (cs = [] → PdfOp.drawString 50 listStartY "(오류 없음)".data ∈ make_pdf cs t e today) ∧
      (make_pdf cs t e today).countP isDrawString = 6 + max 1 cs.length := by
  intro cs t e today
  refine ⟨?_, ?_, ?_⟩
  · rw [make_pdf]
    apply fontReapplied_final
    split
    · refine fontReapplied_append (fontReapplied_no_break (pdfHeader_no_break t e today))
        (fontReapplied_no_break ?_)
      intro op hop
      rw [List.mem_singleton] at hop
      subst hop
      simp
    · exact fontReapplied_fold cs _ (fontReapplied_no_break (pdfHeader_no_break t e today))
  · intro hcs
    subst hcs
    simp [make_pdf]
  · rw [make_pdf]
    rw [List.countP_append]
    split
    case isTrue hz =>
      have hcs : cs = [] := List.length_eq_zero.mp hz
      subst hcs
      simp [List.countP_append, pdfHeader_countP, isDrawString]
    case isFalse hz =>
      rw [countP_fold_pdf]
      simp only [pdfHeader_countP, isDrawString]
      have hpos : 1 ≤ cs.length := by
        cases cs with
        | nil => exact absurd rfl hz
        | cons a b => simp
      simp [isDrawString]
      omega

set_option maxRecDepth 40000 in
/-- Witness for C9: with 27 identical corrections the 27th entry would
cross the 70-point threshold, so the operation at index 41 is a page
break, and the theorem yields the font re-application and top-margin
draw behind it; the empty-corrections instance yields the placeholder
line. -/
theorem make_pdf_pagination_witness :
    (41 + 1 = (make_pdf (List.replicate 27 ("teh".data, "the".data)) 100 27 "d".data).length ∨
      ((make_pdf (List.replicate 27 ("teh".data, "the".data)) 100 27 "d".data).get? (41 + 1) =
          some (PdfOp.setFont "Helvetica" 12) ∧
        ∃ s, (make_pdf (List.replicate 27 ("teh".data, "the".data)) 100 27 "d".data).get?
            (41 + 2) = some (PdfOp.drawString 50 (A4height - 50) s))) ∧
    PdfOp.drawString 50 listStartY "(오류 없음)".data ∈ make_pdf [] 0 0 "d".data :=
  ⟨(make_pdf_pagination (List.replicate 27 ("teh".data, "the".data)) 100 27 "d".data).1 41
      (by norm_num [make_pdf, pdfListStep, pdfHeader, listStartY, A4height, A4width, mmUnit,
        List.replicate, pdfLine, List.get?]),
    (make_pdf_pagination [] 0 0 "d".data).2.1 rfl⟩

end Spelling
